import Mathlib

/-!
Verification development for the Mython interpreter.

Part 1 embeds the lexer (`lexer.h` and its translation unit): the
`Parser` class that turns a character stream into a token vector, with
virtual `Indent`/`Dedent`/`Newline`/`Eof` tokens.  The C++ reads from an
`std::istream`; here the stream is a `List Char`, `get`/`peek` are head
operations and `putback` restores the consumed character, which is how
every handler in the source uses them.  The token vector `tokens_` is
kept most-recent-first (`emplace_back` is cons, `back()` is the head);
the finished token list is reversed at the end.

Part 2 embeds the runtime and AST execution (`runtime.cpp` and the
statement translation unit).
-/

namespace Mython

/-! ### Character classification (C locale, ASCII), used by the handlers -/

def isAlphaCh (c : Char) : Bool :=
  (65 ≤ c.toNat && c.toNat ≤ 90) || (97 ≤ c.toNat && c.toNat ≤ 122)

def isDigitCh (c : Char) : Bool :=
  48 ≤ c.toNat && c.toNat ≤ 57

def isAlnumCh (c : Char) : Bool :=
  isAlphaCh c || isDigitCh c

/-- Embeds `ispunct` in the C locale: printable ASCII that is neither
alphanumeric nor a space. -/
def isPunctCh (c : Char) : Bool :=
  (33 ≤ c.toNat && c.toNat ≤ 47) || (58 ≤ c.toNat && c.toNat ≤ 64) ||
  (91 ≤ c.toNat && c.toNat ≤ 96) || (123 ≤ c.toNat && c.toNat ≤ 126)

def isWordCh (c : Char) : Bool :=
  isAlnumCh c || c = '_'

/-! ### Tokens (`lexer.h`, namespace `token_type`) -/

inductive Token where
  | number (value : Int)
  | id (value : String)
  | charTok (value : Char)
  | strTok (value : String)
  | kClass
  | kReturn
  | kIf
  | kElse
  | kDef
  | newline
  | kPrint
  | indent
  | dedent
  | kAnd
  | kOr
  | kNot
  | eq
  | notEq
  | lessOrEq
  | greaterOrEq
  | kNone
  | kTrue
  | kFalse
  | eof
deriving DecidableEq, Repr

/-- The keyword table `Parser::token_types`. -/
def keywordToken (w : String) : Option Token :=
  if w = "class" then some .kClass
  else if w = "return" then some .kReturn
  else if w = "if" then some .kIf
  else if w = "else" then some .kElse
  else if w = "def" then some .kDef
  else if w = "print" then some .kPrint
  else if w = "or" then some .kOr
  else if w = "None" then some .kNone
  else if w = "and" then some .kAnd
  else if w = "not" then some .kNot
  else if w = "True" then some .kTrue
  else if w = "False" then some .kFalse
  else none

/-- Lexing failures.  The source throws `LexerError` from the dent,
string and escape handlers, and `std::stoi` inside `HandleIntValue`
throws `std::out_of_range` when the digit run does not fit in `int`. -/
inductive LexFailure where
  | lexError (msg : String)
  | outOfRange
deriving DecidableEq, Repr

/-- The lexer state: remaining input, emitted tokens (most recent
first), and `current_dent_`.  `current_dent_` is an `int` in the source
but never goes below zero (`HandleDent` only emits `Dedent`s down to the
new level, which is a nonnegative quotient). -/
structure LexState where
  input : List Char
  rtokens : List Token
  dent : Nat
deriving DecidableEq, Repr

/-! ### Handlers (`Parser::Handle...` in the lexer translation unit) -/

/-- Embeds `detail::ReadWord`: the maximal prefix of letters/digits/underscores;
the first non-matching character is put back. -/
def readWord (l : List Char) : List Char × List Char :=
  (l.takeWhile isWordCh, l.dropWhile isWordCh)

/-- Embeds `Parser::HandleKeywordOrId`.  Never throws. -/
def handleKeywordOrId (st : LexState) : LexState :=
  match st.input with
  | [] => st
  | c :: _ =>
    if isAlphaCh c || c = '_' then
      match keywordToken (String.mk (readWord st.input).1) with
      | some t => { st with input := (readWord st.input).2, rtokens := t :: st.rtokens }
      | none =>
        { st with input := (readWord st.input).2,
                  rtokens := .id (String.mk (readWord st.input).1) :: st.rtokens }
    else st

/-- Embeds `Parser::HandleOperatorEqOrSymbol`.  Never throws. -/
def handleOperatorEqOrSymbol (st : LexState) : LexState :=
  match st.input with
  | [] => st
  | c :: rest =>
    if c = '#' then st
    else if !isPunctCh c || c = '"' || c = '\'' then st
    else
      match c, rest with
      | '!', '=' :: rest2 => { st with input := rest2, rtokens := .notEq :: st.rtokens }
      | '=', '=' :: rest2 => { st with input := rest2, rtokens := .eq :: st.rtokens }
      | '>', '=' :: rest2 => { st with input := rest2, rtokens := .greaterOrEq :: st.rtokens }
      | '<', '=' :: rest2 => { st with input := rest2, rtokens := .lessOrEq :: st.rtokens }
      | _, _ => { st with input := rest, rtokens := .charTok c :: st.rtokens }

/-- The numeric value of a digit run, as accumulated by `std::stoi`. -/
def digitsToNat (ds : List Char) : Nat :=
  ds.foldl (fun a c => 10 * a + (c.toNat - 48)) 0

/-- Embeds `INT_MAX` on the host: `std::stoi` returns `int`. -/
def intMax : Nat := 2147483647

/-- Embeds `Parser::HandleIntValue`: maximal digit run, `std::stoi`.  A value
that does not fit in `int` makes `stoi` throw `std::out_of_range`. -/
def handleIntValue (st : LexState) : Except LexFailure LexState :=
  match st.input with
  | [] => .ok st
  | c :: rest =>
    if isDigitCh c then
      if digitsToNat (c :: rest.takeWhile isDigitCh) > intMax then .error .outOfRange
      else
        .ok { st with
              input := rest.dropWhile isDigitCh,
              rtokens :=
                .number (Int.ofNat (digitsToNat (c :: rest.takeWhile isDigitCh))) :: st.rtokens }
    else .ok st

/-- Embeds `Parser::HandleSpecialSymbol`: the escape table; an unknown escape
character throws `LexerError`. -/
def escapeChar (c : Char) : Option Char :=
  if c = 'n' then some '\n'
  else if c = 't' then some '\t'
  else if c = 'r' then some '\r'
  else if c = '"' then some '"'
  else if c = '\\' then some '\\'
  else if c = '\'' then some '\'' else none

/-- The string-body loop of `Parser::HandleString`, after the opening
quote `q` was consumed.  End of input without a closing quote simply
ends the loop (the token is still emitted); a backslash at end of input
reads the `eof` value `(char)-1`, which is nonzero, so it reaches
`HandleSpecialSymbol` and throws the unrecognized-escape `LexerError`;
a NUL escape character takes the `else` branch and throws the
line-not-closed `LexerError`; a raw newline or carriage return throws. -/
def readStringBody (q : Char) : List Char → Except LexFailure (List Char × List Char)
  | [] => .ok ([], [])
  | c :: rest =>
    if c = q then .ok ([], rest)
    else if c = '\\' then
      match rest with
      | [] => .error (.lexError "Unrecognized escape sequence")
      | e :: rest2 =>
        if e.toNat = 0 then .error (.lexError "The line was not closed")
        else
          match escapeChar e with
          | some ec =>
            match readStringBody q rest2 with
            | .ok (s, r) => .ok (ec :: s, r)
            | .error err => .error err
          | none => .error (.lexError "Unrecognized escape sequence")
    else if c = '\n' || c = '\r' then .error (.lexError "Unexpected end of line")
    else
      match readStringBody q rest with
      | .ok (s, r) => .ok (c :: s, r)
      | .error err => .error err

/-- Embeds `Parser::HandleString`. -/
def handleString (st : LexState) : Except LexFailure LexState :=
  match st.input with
  | [] => .ok st
  | c :: rest =>
    if c = '\'' || c = '"' then
      match readStringBody c rest with
      | .ok (s, rest2) =>
        .ok { st with input := rest2, rtokens := .strTok (String.mk s) :: st.rtokens }
      | .error e => .error e
    else .ok st

/-- Embeds `Parser::RemovingSpacesBeforeTokens`. -/
def removeSpaces (l : List Char) : List Char :=
  l.dropWhile (· = ' ')

/-- Embeds `Parser::HandleComments`: on `#`, `getline` consumes the rest of the
line including the `\n` delimiter (or everything to end of input), and a
`Newline` is emitted when the token vector is nonempty and its back is
neither `Newline` nor `Dedent`. -/
def handleComments (st : LexState) : LexState :=
  match st.input with
  | '#' :: _ =>
    { st with
      input :=
        match st.input.dropWhile (· ≠ '\n') with
        | '\n' :: r => r
        | other => other,
      rtokens :=
        match st.rtokens with
        | [] => st.rtokens
        | t :: _ => if t = .newline || t = .dedent then st.rtokens else .newline :: st.rtokens }
  | _ => st

/-- Embeds `Parser::HandleNewLine`: consume a `\n`; emit a `Newline` only if
the token vector is nonempty and its back is not already `Newline`. -/
def handleNewLine (st : LexState) : LexState :=
  match st.input with
  | '\n' :: rest =>
    { st with
      input := rest,
      rtokens :=
        match st.rtokens with
        | [] => st.rtokens
        | t :: _ => if t = .newline then st.rtokens else .newline :: st.rtokens }
  | _ => st

/-- The guard of `Parser::HandleDent`: skip unless the token vector is
empty or its back is `Newline`. -/
def dentSkip (rt : List Token) : Bool :=
  match rt with
  | [] => false
  | t :: _ => t ≠ Token.newline

/-- Embeds `Parser::HandleDent`.  Runs only when the token vector is empty or
its back is `Newline`, and the next character is not `\n` (blank lines
are skipped).  Counts leading spaces; an odd count throws `LexerError`;
otherwise emits `Indent`/`Dedent` tokens at two spaces per level until
`current_dent_` reaches the new level. -/
def handleDent (st : LexState) : Except LexFailure LexState :=
  if dentSkip st.rtokens then .ok st
  else
    match st.input with
    | '\n' :: _ => .ok st
    | _ =>
      if (st.input.takeWhile (· = ' ')).length % 2 ≠ 0 then
        .error (.lexError "One of the indents contains an odd number of spaces")
      else if st.dent < (st.input.takeWhile (· = ' ')).length / 2 then
        .ok { input := st.input.dropWhile (· = ' '),
              rtokens :=
                List.replicate ((st.input.takeWhile (· = ' ')).length / 2 - st.dent)
                  Token.indent ++ st.rtokens,
              dent := (st.input.takeWhile (· = ' ')).length / 2 }
      else
        .ok { input := st.input.dropWhile (· = ' '),
              rtokens :=
                List.replicate (st.dent - (st.input.takeWhile (· = ' ')).length / 2)
                  Token.dedent ++ st.rtokens,
              dent := (st.input.takeWhile (· = ' ')).length / 2 }

/-- One iteration of the loop in `Parser::ParseTokens`: the eight
handlers in source order. -/
def lexIter (st0 : LexState) : Except LexFailure LexState :=
  match handleIntValue (handleOperatorEqOrSymbol (handleKeywordOrId st0)) with
  | .error e => .error e
  | .ok st3 =>
    match handleString st3 with
    | .error e => .error e
    | .ok st4 =>
      handleDent (handleNewLine (handleComments { st4 with input := removeSpaces st4.input }))

/-- Outcome of running the lexer loop: success, a thrown failure, or
divergence (the C++ loop does not terminate on some inputs, e.g. a lone
`\r`; `hang` is returned when the fuel runs out). -/
inductive LexOutcome where
  | ok (st : LexState)
  | err (e : LexFailure)
  | hang
deriving DecidableEq, Repr

/-- The `while (input_tokens_)` loop of `Parser::ParseTokens`.  The
stream's fail state is reached one iteration after the input is
exhausted; that extra iteration runs the handlers once more on empty
input (they change nothing there — each one early-returns at end of
input, and `HandleDent` runs only after a `Newline`, which the final
in-stream iteration has already processed). -/
def lexLoop : Nat → LexState → LexOutcome
  | 0, _ => .hang
  | fuel + 1, st =>
    match lexIter st with
    | .error e => .err e
    | .ok st2 =>
      if st2.input.isEmpty then
        match lexIter st2 with
        | .error e => .err e
        | .ok st3 => .ok st3
      else lexLoop fuel st2

/-- The epilogue of `Parser::ParseTokens`: append a `Newline` when the
vector is nonempty and does not already end in `Newline` or `Dedent`,
then append `Eof`.  The reversed accumulator becomes the token vector. -/
def finishTokens (rtokens : List Token) : List Token :=
  let rt := match rtokens with
    | [] => rtokens
    | t :: _ => if t = .newline || t = .dedent then rtokens else .newline :: rtokens
  (Token.eof :: rt).reverse

/-- Result of lexing a whole text: the token vector and the final
`current_dent_`, or the thrown failure, or divergence. -/
inductive LexRun where
  | ok (tokens : List Token) (dent : Nat)
  | err (e : LexFailure)
  | hang
deriving DecidableEq, Repr

/-- Embeds `Parser::ParseTokens` end to end: strip leading spaces (the call to
`RemovingSpacesBeforeTokens` before the loop), run the loop, then the
epilogue. -/
def lexProgram (fuel : Nat) (input : List Char) : LexRun :=
  match lexLoop fuel ⟨removeSpaces input, [], 0⟩ with
  | .ok st => .ok (finishTokens st.rtokens) st.dent
  | .err e => .err e
  | .hang => .hang

/-- Ten consecutive digits occur somewhere in the list. -/
def tenDigitsAtFront (l : List Char) : Bool :=
  decide ((l.take 10).length = 10) && (l.take 10).all isDigitCh

def hasTenDigitRun : List Char → Bool
  | [] => false
  | c :: cs => tenDigitsAtFront (c :: cs) || hasTenDigitRun cs

/-!
## Part 2: runtime values and AST execution

`runtime.cpp` and the statement translation unit.  An `ObjectHolder` is
empty (*None*) or holds a `Number`, `String`, `Bool`, `ClassInstance`
or `Class`.  Value types are owned per holder; class instances are
shared, modelled as indices into a heap; classes are immutable and
modelled as indices into a fixed class table.  A scope (`Closure`) is a
map from name to holder, modelled as an association list with
insert-or-replace update.
-/

inductive Value where
  | none
  | num (n : Int)
  | str (s : String)
  | bool (b : Bool)
  | instRef (i : Nat)
  | classRef (c : Nat)
deriving DecidableEq, Repr

abbrev Closure := List (String × Value)

def clookup (c : Closure) (k : String) : Option Value :=
  match c with
  | [] => Option.none
  | (k2, v) :: rest => if k2 = k then some v else clookup rest k

/-- Embeds `closure[name] = value`: replace the binding if present, else add it. -/
def cinsert (c : Closure) (k : String) (v : Value) : Closure :=
  match c with
  | [] => [(k, v)]
  | (k2, v2) :: rest => if k2 = k then (k2, v) :: rest else (k2, v2) :: cinsert rest k v

/-! ### Classes, methods, instances -/

inductive CmpOp where
  | cmpEq
  | cmpNotEq
  | cmpLess
  | cmpGreater
  | cmpLessOrEq
  | cmpGreaterOrEq
deriving DecidableEq, Repr

/-- The AST statement/expression nodes of the statement translation
unit.  `VariableValue` keeps its dotted id list; `FieldAssignment`
keeps the `VariableValue` member as that list.  `NewInstance` holds the
`ClassInstance` member `class_instance_` that the node constructor
creates once from the class: it is modelled as the index of that
pre-allocated instance in the initial heap.  `ClassDefinition` holds
its class object as an index into the class table.  `Comparison` stores
one of the six comparator functions that the parser wires in, modelled
as a `CmpOp` tag. -/
inductive Stmt where
  | noneLit
  | variableValue (dottedIds : List String)
  | assignment (varName : String) (rvalue : Stmt)
  | fieldAssignment (objectIds : List String) (fieldName : String) (rvalue : Stmt)
  | print (args : List Stmt)
  | methodCall (object : Stmt) (method : String) (args : List Stmt)
  | newInstance (inst : Nat) (args : List Stmt)
  | stringify (argument : Stmt)
  | add (lhs rhs : Stmt)
  | sub (lhs rhs : Stmt)
  | mult (lhs rhs : Stmt)
  | div (lhs rhs : Stmt)
  | or (lhs rhs : Stmt)
  | and (lhs rhs : Stmt)
  | not (argument : Stmt)
  | compound (statements : List Stmt)
  | methodBody (body : Stmt)
  | ret (statement : Stmt)
  | classDefinition (cls : Nat)
  | ifElse (condition ifBody : Stmt) (elseBody : Option Stmt)
  | comparison (cmp : CmpOp) (lhs rhs : Stmt)

structure Method where
  name : String
  formalParams : List String
  body : Stmt

structure ClassDecl where
  name : String
  methods : List Method
  parent : Option Nat

abbrev ClassEnv := List ClassDecl

/-- Embeds `Class::GetMethod`: the class's own `table_methods_`, then the
parent.  The table is built by inserting each method in declaration
order, so a later duplicate name wins — hence the reversed `find?`.
The fuel bounds the parent chain; the parser registers a base class
before any class deriving from it, so `classes.length + 1` steps always
suffice. -/
def getMethodAux (classes : ClassEnv) : Nat → Nat → String → Option Method
  | 0, _, _ => Option.none
  | fuel + 1, idx, name =>
    match classes[idx]? with
    | some cd =>
      match cd.methods.reverse.find? (fun m => m.name = name) with
      | some m => some m
      | Option.none =>
        match cd.parent with
        | some p => getMethodAux classes fuel p name
        | Option.none => Option.none
    | Option.none => Option.none

def getMethod (classes : ClassEnv) (idx : Nat) (name : String) : Option Method :=
  getMethodAux classes (classes.length + 1) idx name

/-- A `ClassInstance`: its class and its `fields_` scope. -/
structure Instance where
  cls : Nat
  fields : Closure

abbrev Heap := List Instance

/-- Interpreter state: the shared class instances and the bytes written
to the context's output stream. -/
structure EState where
  heap : Heap
  output : String

/-- Embeds `ClassInstance::HasMethod`: a method of that name exists (following
parents) whose formal-parameter count equals `argc` (`self` is not a
formal parameter). -/
def hasMethodI (classes : ClassEnv) (h : Heap) (i : Nat) (name : String) (argc : Nat) : Bool :=
  match h[i]? with
  | some inst =>
    match getMethod classes inst.cls name with
    | some m => m.formalParams.length = argc
    | Option.none => false
  | Option.none => false

def fieldsOf (h : Heap) (i : Nat) : Closure :=
  match h[i]? with
  | some inst => inst.fields
  | Option.none => []

def setField (h : Heap) (i : Nat) (f : String) (v : Value) : Heap :=
  match h[i]? with
  | some inst => h.set i ⟨inst.cls, cinsert inst.fields f v⟩
  | Option.none => h

/-- Embeds how `Fields()[field_name_]` default-constructs an empty holder when the
key is absent; in `FieldAssignment::Execute` this happens before the
right-hand side is evaluated. -/
def ensureField (h : Heap) (i : Nat) (f : String) : Heap :=
  match h[i]? with
  | some inst =>
    match clookup inst.fields f with
    | some _ => h
    | Option.none => h.set i ⟨inst.cls, cinsert inst.fields f Value.none⟩
  | Option.none => h

/-- The loop of `VariableValue::Execute`, on a copy of the scope.  At a
non-final id that is bound to a `ClassInstance` the loop descends into
its fields; a missing name or a non-instance value leaves the current
map unchanged (there is no `else`); only a failed lookup of the final
id at its turn falls out of the loop into the `throw`. -/
def varLoop (h : Heap) : List String → Closure → Option Value
  | [], _ => Option.none
  | [x], cl => clookup cl x
  | x :: rest, cl =>
    match clookup cl x with
    | some (Value.instRef i) => varLoop h rest (fieldsOf h i)
    | _ => varLoop h rest cl

/-- The `this` pointer printed by the `__str__`-less branch of
`ClassInstance::Print` is implementation-defined; the model renders the
heap index (an injective address assignment). -/
def addrString (i : Nat) : String := "0x" ++ toString i

/-- Embeds `lhs < rhs` on `std::string`: lexicographic byte compare. -/
def strLtB : List Char → List Char → Bool
  | [], [] => false
  | [], _ :: _ => true
  | _ :: _, [] => false
  | a :: as, b :: bs =>
    if a.toNat < b.toNat then true
    else if b.toNat < a.toNat then false
    else strLtB as bs

def strLt (s t : String) : Bool := strLtB s.toList t.toList

/-- Embeds `runtime::IsTrue` restricted to what `Or`/`And`/`Not` use: the
operand is a `Bool` holding `true` (`TryAs<Bool>` non-null and
`GetValue()`). -/
def isTrueBool (v : Value) : Bool :=
  match v with
  | Value.bool b => b
  | _ => false

/-- Exceptional outcomes: a thrown `ObjectHolder` (from `Return`), a
thrown `std::runtime_error`, undefined behaviour (a null pointer from
`TryAs` dereferenced: the unchecked `TryAs<Bool>()->GetValue()` in
`ComparatorImpl`, and `operator->` on an empty holder in
`ClassInstance::Print`), or fuel exhaustion of the model. -/
inductive Exn where
  | thrown (v : Value) (c : Closure) (st : EState)
  | rerr (msg : String) (st : EState)
  | ub (st : EState)
  | noFuel

/-- Result of executing one statement: the value, the (by-reference,
possibly mutated) scope and the state, or an exceptional outcome. -/
inductive Res where
  | ok (v : Value) (c : Closure) (st : EState)
  | exn (e : Exn)

/-- Result of `ClassInstance::Call` (the method scope is discarded). -/
inductive CallRes where
  | ok (v : Value) (st : EState)
  | exn (e : Exn)

/-- Result of printing one value into a buffer. -/
inductive PrintRes where
  | ok (s : String) (st : EState)
  | exn (e : Exn)

/-- Result of evaluating an argument list. -/
inductive ArgsRes where
  | ok (vs : List Value) (c : Closure) (st : EState)
  | exn (e : Exn)

/-- Result of the buffer-building loop of `Print::Execute`. -/
inductive BufRes where
  | ok (buf : String) (c : Closure) (st : EState)
  | exn (e : Exn)

/-- Comparator result (`Equal`, `Less` and the derived relations). -/
inductive CmpRes where
  | ok (b : Bool) (st : EState)
  | exn (e : Exn)

/-- Embeds `closure[param[i]] = args[i]` for each formal parameter in order. -/
def bindParams (c : Closure) : List String → List Value → Closure
  | p :: ps, v :: vs => bindParams (cinsert c p v) ps vs
  | _, _ => c

mutual

/-- Embeds `Statement::Execute` for every node of the statement translation
unit.  Recursion is structural on the fuel; each recursive call runs at
`fuel` after matching `fuel + 1`, and `exec classes 0 _ _ _` is
`noFuel`. -/
def exec (classes : ClassEnv) : Nat → Stmt → Closure → EState → Res
  | 0, _, _, _ => .exn .noFuel
  | fuel + 1, s, c, st =>
    match s with
    | .noneLit => .ok Value.none c st
    | .variableValue ids =>
      match varLoop st.heap ids c with
      | some v => .ok v c st
      | Option.none =>
        .exn (.rerr "Unexpected error of the \"VariableValue::Execute\" method" st)
    | .assignment name rhs =>
      match exec classes fuel rhs c st with
      | .ok v c2 st2 => .ok v (cinsert c2 name v) st2
      | .exn e => .exn e
    | .fieldAssignment objIds f rhs =>
      match varLoop st.heap objIds c with
      | some (Value.instRef i) =>
        match exec classes fuel rhs c { st with heap := ensureField st.heap i f } with
        | .ok v c2 st2 =>
          .ok v (cinsert c2 f v) { st2 with heap := setField st2.heap i f v }
        | .exn e => .exn e
      | some _ =>
        .exn (.rerr "FieldAssignment::Execute. The object is not a custom type" st)
      | Option.none =>
        .exn (.rerr "Unexpected error of the \"VariableValue::Execute\" method" st)
    | .print args =>
      match printArgs classes fuel args true c st with
      | .ok buf c2 st2 =>
        .ok (Value.str buf) c2 { st2 with output := st2.output ++ buf ++ "\n" }
      | .exn e => .exn e
    | .methodCall obj name args =>
      match exec classes fuel obj c st with
      | .ok v c2 st2 =>
        match v with
        | Value.instRef i =>
          if hasMethodI classes st2.heap i name args.length then
            match execArgs classes fuel args c2 st2 with
            | .ok vs c3 st3 =>
              match callMethod classes fuel i name vs st3 with
              | .ok rv st4 => .ok rv c3 st4
              | .exn e => .exn e
            | .exn e => .exn e
          else
            .exn (.rerr "MethodCall::Execute. The class does not have the method" st2)
        | _ => .exn (.rerr "MethodCall::Execute. The object is not a custom type" st2)
      | .exn e => .exn e
    | .newInstance i args =>
      if hasMethodI classes st.heap i "__init__" args.length then
        match execArgs classes fuel args c st with
        | .ok vs c2 st2 =>
          match callMethod classes fuel i "__init__" vs st2 with
          | .ok _ st3 => .ok (Value.instRef i) c2 st3
          | .exn e => .exn e
        | .exn e => .exn e
      else .ok (Value.instRef i) c st
    | .stringify a =>
      match exec classes fuel a c st with
      | .ok v c2 st2 =>
        match printValue classes fuel v st2 with
        | .ok s st3 => .ok (Value.str s) c2 st3
        | .exn e => .exn e
      | .exn e => .exn e
    | .add l r =>
      match exec classes fuel l c st with
      | .ok lv c2 st2 =>
        match exec classes fuel r c2 st2 with
        | .ok rv c3 st3 =>
          match lv, rv with
          | Value.num a, Value.num b => .ok (Value.num (a + b)) c3 st3
          | Value.str a, Value.str b => .ok (Value.str (a ++ b)) c3 st3
          | _, _ =>
            match lv with
            | Value.instRef i =>
              if hasMethodI classes st3.heap i "__add__" 1 then
                match callMethod classes fuel i "__add__" [rv] st3 with
                | .ok rv2 st4 => .ok rv2 c3 st4
                | .exn e => .exn e
              else .exn (.rerr "Add::Execute is failed" st3)
            | _ => .exn (.rerr "Add::Execute is failed" st3)
        | .exn e => .exn e
      | .exn e => .exn e
    | .sub l r =>
      match exec classes fuel l c st with
      | .ok lv c2 st2 =>
        match exec classes fuel r c2 st2 with
        | .ok rv c3 st3 =>
          match lv, rv with
          | Value.num a, Value.num b => .ok (Value.num (a - b)) c3 st3
          | _, _ => .exn (.rerr "Sub::Execute is failed" st3)
        | .exn e => .exn e
      | .exn e => .exn e
    | .mult l r =>
      match exec classes fuel l c st with
      | .ok lv c2 st2 =>
        match exec classes fuel r c2 st2 with
        | .ok rv c3 st3 =>
          match lv, rv with
          | Value.num a, Value.num b => .ok (Value.num (a * b)) c3 st3
          | _, _ => .exn (.rerr "Mult::Execute is failed" st3)
        | .exn e => .exn e
      | .exn e => .exn e
    | .div l r =>
      match exec classes fuel l c st with
      | .ok lv c2 st2 =>
        match exec classes fuel r c2 st2 with
        | .ok rv c3 st3 =>
          match lv, rv with
          | Value.num a, Value.num b =>
            if b ≠ 0 then .ok (Value.num (Int.tdiv a b)) c3 st3
            else .exn (.rerr "Div::Execute is failed" st3)
          | _, _ => .exn (.rerr "Div::Execute is failed" st3)
        | .exn e => .exn e
      | .exn e => .exn e
    | .or l r =>
      match exec classes fuel l c st with
      | .ok lv c2 st2 =>
        if isTrueBool lv then .ok (Value.bool true) c2 st2
        else
          match exec classes fuel r c2 st2 with
          | .ok rv c3 st3 =>
            if isTrueBool rv then .ok (Value.bool true) c3 st3
            else .ok (Value.bool false) c3 st3
          | .exn e => .exn e
      | .exn e => .exn e
    | .and l r =>
      match exec classes fuel l c st with
      | .ok lv c2 st2 =>
        if !isTrueBool lv then .ok (Value.bool false) c2 st2
        else
          match exec classes fuel r c2 st2 with
          | .ok rv c3 st3 =>
            if !isTrueBool rv then .ok (Value.bool false) c3 st3
            else .ok (Value.bool true) c3 st3
          | .exn e => .exn e
      | .exn e => .exn e
    | .not a =>
      match exec classes fuel a c st with
      | .ok v c2 st2 =>
        match v with
        | Value.bool b => .ok (Value.bool (!b)) c2 st2
        | _ =>
          .exn (.rerr "Not::Execute. The argument cannot be cast to the \"runtime::Bool\" type" st2)
      | .exn e => .exn e
    | .compound ss => execSeq classes fuel ss c st
    | .methodBody b =>
      match exec classes fuel b c st with
      | .ok v c2 st2 => .ok v c2 st2
      | .exn (.thrown v c2 st2) => .ok v c2 st2
      | .exn e => .exn e
    | .ret e =>
      match exec classes fuel e c st with
      | .ok v c2 st2 => .exn (.thrown v c2 st2)
      | .exn ex => .exn ex
    | .classDefinition idx =>
      match classes[idx]? with
      | some cd =>
        if cd.name = "" then .exn (.rerr "Class name must not be empty" st)
        else .ok (Value.classRef idx) (cinsert c cd.name (Value.classRef idx)) st
      | Option.none => .exn (.rerr "Class name must not be empty" st)
    | .ifElse cond tb eb =>
      match exec classes fuel cond c st with
      | .ok v c2 st2 =>
        match v with
        | Value.bool b =>
          if b then exec classes fuel tb c2 st2
          else
            match eb with
            | some el => exec classes fuel el c2 st2
            | Option.none => .ok Value.none c2 st2
        | _ => .exn (.rerr "Execute is failed" st2)
      | .exn e => .exn e
    | .comparison op l r =>
      match exec classes fuel l c st with
      | .ok lv c2 st2 =>
        match exec classes fuel r c2 st2 with
        | .ok rv c3 st3 =>
          match cmpDispatch classes fuel op lv rv st3 with
          | .ok b st4 => .ok (Value.bool b) c3 st4
          | .exn e => .exn e
        | .exn e => .exn e
      | .exn e => .exn e

/-- The body of `Compound::Execute`: children in order, values
swallowed, *None* at the end. -/
def execSeq (classes : ClassEnv) : Nat → List Stmt → Closure → EState → Res
  | 0, _, _, _ => .exn .noFuel
  | _ + 1, [], c, st => .ok Value.none c st
  | fuel + 1, s :: rest, c, st =>
    match exec classes fuel s c st with
    | .ok _ c2 st2 => execSeq classes fuel rest c2 st2
    | .exn e => .exn e

/-- Left-to-right evaluation of actual arguments (`MethodCall`,
`NewInstance`). -/
def execArgs (classes : ClassEnv) : Nat → List Stmt → Closure → EState → ArgsRes
  | 0, _, _, _ => .exn .noFuel
  | _ + 1, [], c, st => .ok [] c st
  | fuel + 1, a :: rest, c, st =>
    match exec classes fuel a c st with
    | .ok v c2 st2 =>
      match execArgs classes fuel rest c2 st2 with
      | .ok vs c3 st3 => .ok (v :: vs) c3 st3
      | .exn e => .exn e
    | .exn e => .exn e

/-- The loop of `Print::Execute`: a space before every argument but the
first, each argument evaluated then printed into the buffer (`None` for
an empty holder). -/
def printArgs (classes : ClassEnv) : Nat → List Stmt → Bool → Closure → EState → BufRes
  | 0, _, _, _, _ => .exn .noFuel
  | _ + 1, [], _, c, st => .ok "" c st
  | fuel + 1, a :: rest, first, c, st =>
    match exec classes fuel a c st with
    | .ok v c2 st2 =>
      match printValue classes fuel v st2 with
      | .ok s st3 =>
        match printArgs classes fuel rest false c2 st3 with
        | .ok buf c3 st4 => .ok ((if first then "" else " ") ++ s ++ buf) c3 st4
        | .exn e => .exn e
      | .exn e => .exn e
    | .exn e => .exn e

/-- Embeds `Object::Print` dispatched on the holder, with the callers'
`None`-for-empty convention folded in (both `Print::Execute` and
`Stringify::Execute` write `None` for an empty holder and never
dispatch on it).  For a `ClassInstance`: `__str__` of arity 0 is called
and its result printed — `operator->` on an empty result holder is
undefined behaviour — otherwise the identity is printed. -/
def printValue (classes : ClassEnv) : Nat → Value → EState → PrintRes
  | 0, _, _ => .exn .noFuel
  | fuel + 1, v, st =>
    match v with
    | Value.none => .ok "None" st
    | Value.num n => .ok (toString n) st
    | Value.str s => .ok s st
    | Value.bool b => .ok (if b then "True" else "False") st
    | Value.classRef i =>
      .ok ("Class " ++ (match classes[i]? with | some cd => cd.name | Option.none => "")) st
    | Value.instRef i =>
      if hasMethodI classes st.heap i "__str__" 0 then
        match callMethod classes fuel i "__str__" [] st with
        | .ok rv st2 =>
          match rv with
          | Value.none => .exn (.ub st2)
          | _ => printValue classes fuel rv st2
        | .exn e => .exn e
      else .ok (addrString i) st

/-- Embeds `ClassInstance::Call`: verify the method exists with exactly the
actual argument count (`HasMethod`; the later `expect > actual` check
in the source cannot fire after it), build the fresh scope
`{self ↦ shared holder}`, bind the formals in order, execute the body.
The method scope is discarded; a `Return` escaping a body that is not
wrapped in `MethodBody` propagates. -/
def callMethod (classes : ClassEnv) : Nat → Nat → String → List Value → EState → CallRes
  | 0, _, _, _, _ => .exn .noFuel
  | fuel + 1, i, mname, args, st =>
    match st.heap[i]? with
    | some inst =>
      match getMethod classes inst.cls mname with
      | some m =>
        if m.formalParams.length = args.length then
          let mc := bindParams [("self", Value.instRef i)] m.formalParams args
          match exec classes fuel m.body mc st with
          | .ok v _ st2 => .ok v st2
          | .exn e => .exn e
        else .exn (.rerr "Method is not implemented." st)
      | Option.none => .exn (.rerr "Method is not implemented." st)
    | Option.none => .exn (.rerr "Method is not implemented." st)

/-- Embeds `ComparatorImpl`: `Bool` pair, `Number` pair, `String` pair, then a
left `ClassInstance` with the dunder method of arity 1 — whose result
is converted by the unchecked `TryAs<Bool>()->GetValue()` (undefined
behaviour when the result is not a `Bool`) — else the
"Non-comparable objects" runtime error. -/
def comparatorImpl (classes : ClassEnv) (cb : Bool → Bool → Bool) (cn : Int → Int → Bool)
    (cs : String → String → Bool) (mname : String) :
    Nat → Value → Value → EState → CmpRes
  | 0, _, _, _ => .exn .noFuel
  | fuel + 1, a, b, st =>
    match a, b with
    | Value.bool x, Value.bool y => .ok (cb x y) st
    | Value.num x, Value.num y => .ok (cn x y) st
    | Value.str x, Value.str y => .ok (cs x y) st
    | _, _ =>
      match a with
      | Value.instRef i =>
        if hasMethodI classes st.heap i mname 1 then
          match callMethod classes fuel i mname [b] st with
          | .ok v st2 =>
            match v with
            | Value.bool bv => .ok bv st2
            | _ => .exn (.ub st2)
          | .exn e => .exn e
        else .exn (.rerr "Non-comparable objects" st)
      | _ => .exn (.rerr "Non-comparable objects" st)

/-- Embeds `runtime::Equal`: both holders empty compare equal; otherwise
`ComparatorImpl` with `==` and `__eq__`. -/
def equalCmp (classes : ClassEnv) : Nat → Value → Value → EState → CmpRes
  | 0, _, _, _ => .exn .noFuel
  | fuel + 1, a, b, st =>
    match a, b with
    | Value.none, Value.none => .ok true st
    | _, _ =>
      comparatorImpl classes (fun x y => x == y) (fun x y => decide (x = y))
        (fun x y => x == y) "__eq__" fuel a b st

/-- Embeds `runtime::Less`: `ComparatorImpl` with `<` and `__lt__`. -/
def lessCmp (classes : ClassEnv) : Nat → Value → Value → EState → CmpRes
  | 0, _, _, _ => .exn .noFuel
  | fuel + 1, a, b, st =>
    comparatorImpl classes (fun x y => !x && y) (fun x y => decide (x < y))
      strLt "__lt__" fuel a b st

/-- Embeds `runtime::NotEqual`: `!Equal(lhs, rhs, context)`. -/
def notEqualCmp (classes : ClassEnv) : Nat → Value → Value → EState → CmpRes
  | 0, _, _, _ => .exn .noFuel
  | fuel + 1, a, b, st =>
    match equalCmp classes fuel a b st with
    | .ok e st2 => .ok (!e) st2
    | .exn ex => .exn ex

/-- Embeds `runtime::Greater`: `!Less(...) && NotEqual(...)`, with C++
short-circuit: when `Less` is true, `NotEqual` is not evaluated. -/
def greaterCmp (classes : ClassEnv) : Nat → Value → Value → EState → CmpRes
  | 0, _, _, _ => .exn .noFuel
  | fuel + 1, a, b, st =>
    match lessCmp classes fuel a b st with
    | .ok true st2 => .ok false st2
    | .ok false st2 => notEqualCmp classes fuel a b st2
    | .exn ex => .exn ex

/-- Embeds `runtime::LessOrEqual`: `Less(...) || Equal(...)`, with C++
short-circuit: when `Less` is true, `Equal` is not evaluated. -/
def lessOrEqualCmp (classes : ClassEnv) : Nat → Value → Value → EState → CmpRes
  | 0, _, _, _ => .exn .noFuel
  | fuel + 1, a, b, st =>
    match lessCmp classes fuel a b st with
    | .ok true st2 => .ok true st2
    | .ok false st2 => equalCmp classes fuel a b st2
    | .exn ex => .exn ex

/-- Embeds `runtime::GreaterOrEqual`: `!Less(...)`. -/
def greaterOrEqualCmp (classes : ClassEnv) : Nat → Value → Value → EState → CmpRes
  | 0, _, _, _ => .exn .noFuel
  | fuel + 1, a, b, st =>
    match lessCmp classes fuel a b st with
    | .ok l st2 => .ok (!l) st2
    | .exn ex => .exn ex

/-- The comparator function stored in a `Comparison` node, applied. -/
def cmpDispatch (classes : ClassEnv) : Nat → CmpOp → Value → Value → EState → CmpRes
  | 0, _, _, _, _ => .exn .noFuel
  | fuel + 1, op, a, b, st =>
    match op with
    | .cmpEq => equalCmp classes fuel a b st
    | .cmpNotEq => notEqualCmp classes fuel a b st
    | .cmpLess => lessCmp classes fuel a b st
    | .cmpGreater => greaterCmp classes fuel a b st
    | .cmpLessOrEq => lessOrEqualCmp classes fuel a b st
    | .cmpGreaterOrEq => greaterOrEqualCmp classes fuel a b st

end

/-- The printed representation of a value whose printing cannot run
user code: everything except a `ClassInstance`.  Printing such a value
never touches the interpreter state. -/
def pureRepr (classes : ClassEnv) : Value → Option String
  | Value.none => some "None"
  | Value.num n => some (toString n)
  | Value.str s => some s
  | Value.bool b => some (if b then "True" else "False")
  | Value.classRef i =>
    some ("Class " ++ (match classes[i]? with | some cd => cd.name | Option.none => ""))
  | Value.instRef _ => Option.none

/-- The map reached by the descent of `VariableValue::Execute` over the
ids before the last: descend into an instance's fields when the current
name resolves to a `ClassInstance`, otherwise keep the map. -/
def descendQuirk (h : Heap) (cl : Closure) (pre : List String) : Closure :=
  pre.foldl
    (fun m id =>
      match clookup m id with
      | some (Value.instRef i) => fieldsOf h i
      | _ => m)
    cl

/-!
### Concrete scenarios used by counterexamples and witnesses

`newShared*`: the program
```
class B:
  def noop():
    return None
class F:
  def make():
    return B()
f = F()
x = f.make()
y = f.make()
```
after the parse phase.  The parser pre-allocates one `ClassInstance`
inside each `NewInstance` node's constructor: heap slot 0 is the member
instance of the `B()` node inside `make`, heap slot 1 the member
instance of the top-level `F()` node.  Both calls to `make` execute the
same `B()` node. -/

def newSharedClasses : ClassEnv :=
  [⟨"B", [⟨"noop", [], .methodBody (.ret .noneLit)⟩], Option.none⟩,
   ⟨"F", [⟨"make", [], .methodBody (.ret (.newInstance 0 []))⟩], Option.none⟩]

def newSharedHeap : Heap := [⟨0, []⟩, ⟨1, []⟩]

def newSharedProg : Stmt :=
  .compound
    [.assignment "f" (.newInstance 1 []),
     .assignment "x" (.methodCall (.variableValue ["f"]) "make" []),
     .assignment "y" (.methodCall (.variableValue ["f"]) "make" [])]

/-- A class whose method `m` has the body `print` (no arguments): the
call writes a bare newline to the output stream and returns *None*. -/
def printingClasses : ClassEnv :=
  [⟨"K", [⟨"m", [], .methodBody (.compound [.print []])⟩], Option.none⟩]

/-- A class with `__eq__` returning its argument unchanged and `__lt__`
returning *None*. -/
def dunderClasses : ClassEnv :=
  [⟨"E", [⟨"__eq__", ["o"], .methodBody (.ret (.variableValue ["o"]))⟩,
          ⟨"__lt__", ["o"], .methodBody (.ret .noneLit)⟩], Option.none⟩]

end Mython

/-!
## Theorems

Helper lemmas first, then one theorem per claim (with counterexamples
and witnesses where the claim's status calls for them).
-/

namespace Mython

theorem clookup_cinsert (c : Closure) (k : String) (v : Value) :
    clookup (cinsert c k v) k = some v := by
  induction c with
  | nil => simp [cinsert, clookup]
  | cons p rest ih =>
    obtain ⟨k2, v2⟩ := p
    by_cases h : k2 = k
    · simp [cinsert, clookup, h]
    · simp [cinsert, clookup, h, ih]

/-- The loop of `VariableValue::Execute` equals: descend over the ids
before the last (into fields only at instance-valued names), then look
up the last id in the map so reached. -/
theorem varLoop_eq_descend (h : Heap) (ids : List String) :
    ∀ (hne : ids ≠ []) (cl : Closure),
      varLoop h ids cl = clookup (descendQuirk h cl ids.dropLast) (ids.getLast hne) := by
  induction ids with
  | nil => intro hne; exact absurd rfl hne
  | cons x rest ih =>
    intro hne cl
    cases rest with
    | nil => simp [varLoop, descendQuirk]
    | cons y rest2 =>
      have hne2 : y :: rest2 ≠ [] := List.cons_ne_nil y rest2
      have hgl : (x :: y :: rest2).getLast hne = (y :: rest2).getLast hne2 :=
        List.getLast_cons hne2
      rw [hgl]
      show (match clookup cl x with
            | some (Value.instRef i) => varLoop h (y :: rest2) (fieldsOf h i)
            | _ => varLoop h (y :: rest2) cl) = _
      cases hx : clookup cl x with
      | none =>
        have hd : descendQuirk h cl ((x :: y :: rest2).dropLast) =
            descendQuirk h cl ((y :: rest2).dropLast) := by
          show descendQuirk h cl (x :: (y :: rest2).dropLast) = _
          simp [descendQuirk, hx]
        rw [hd]
        exact ih hne2 cl
      | some v =>
        cases v with
        | instRef i =>
          have hd : descendQuirk h cl ((x :: y :: rest2).dropLast) =
              descendQuirk h (fieldsOf h i) ((y :: rest2).dropLast) := by
            show descendQuirk h cl (x :: (y :: rest2).dropLast) = _
            simp [descendQuirk, hx]
          rw [hd]
          exact ih hne2 (fieldsOf h i)
        | none =>
          have hd : descendQuirk h cl ((x :: y :: rest2).dropLast) =
              descendQuirk h cl ((y :: rest2).dropLast) := by
            show descendQuirk h cl (x :: (y :: rest2).dropLast) = _
            simp [descendQuirk, hx]
          rw [hd]; exact ih hne2 cl
        | num n =>
          have hd : descendQuirk h cl ((x :: y :: rest2).dropLast) =
              descendQuirk h cl ((y :: rest2).dropLast) := by
            show descendQuirk h cl (x :: (y :: rest2).dropLast) = _
            simp [descendQuirk, hx]
          rw [hd]; exact ih hne2 cl
        | str s =>
          have hd : descendQuirk h cl ((x :: y :: rest2).dropLast) =
              descendQuirk h cl ((y :: rest2).dropLast) := by
            show descendQuirk h cl (x :: (y :: rest2).dropLast) = _
            simp [descendQuirk, hx]
          rw [hd]; exact ih hne2 cl
        | bool b =>
          have hd : descendQuirk h cl ((x :: y :: rest2).dropLast) =
              descendQuirk h cl ((y :: rest2).dropLast) := by
            show descendQuirk h cl (x :: (y :: rest2).dropLast) = _
            simp [descendQuirk, hx]
          rw [hd]; exact ih hne2 cl
        | classRef cr =>
          have hd : descendQuirk h cl ((x :: y :: rest2).dropLast) =
              descendQuirk h cl ((y :: rest2).dropLast) := by
            show descendQuirk h cl (x :: (y :: rest2).dropLast) = _
            simp [descendQuirk, hx]
          rw [hd]; exact ih hne2 cl

/-- Printing a value that is not a class instance writes nothing and
cannot fail. -/
theorem printValue_pure (classes : ClassEnv) (v : Value) (s : String)
    (h : pureRepr classes v = some s) (g : Nat) (st : EState) :
    printValue classes (g + 1) v st = .ok s st := by
  cases v <;> simp_all [pureRepr, printValue]

theorem fieldsOf_setField (h : Heap) (i : Nat) (f : String) (v : Value)
    (inst : Instance) (hi : h[i]? = some inst) :
    fieldsOf (setField h i f v) i = cinsert inst.fields f v := by
  have hlen : i < h.length := by
    by_contra hnot
    rw [List.getElem?_eq_none (Nat.le_of_not_lt hnot)] at hi
    cases hi
  simp [setField, fieldsOf, hi, List.getElem?_set_self hlen]

end Mython

namespace Mython

/-! ### Claim C1 -/

/-- Claim C1.  The claim states that every execution of a
`NewInstance(class, args)` node allocates a fresh instance, so that two
executions of the same node yield two distinct instances.  The source
constructs the `class_instance_` member once, in the node's
constructor, and `NewInstance::Execute` returns
`ObjectHolder::Share(class_instance_)` — the same instance on every
execution.  Here the program `f = F(); x = f.make(); y = f.make()`,
where `make` returns `B()`, binds `x` and `y` to the *same* instance
(heap slot 0, the `B()` node's member), not two distinct ones. -/
theorem claimC1_newInstance_shared :
    exec newSharedClasses 20 newSharedProg [] ⟨newSharedHeap, ""⟩ =
      .ok Value.none
        [("f", Value.instRef 1), ("x", Value.instRef 0), ("y", Value.instRef 0)]
        ⟨newSharedHeap, ""⟩ ∧
    clookup [("f", Value.instRef 1), ("x", Value.instRef 0), ("y", Value.instRef 0)] "x" =
      clookup [("f", Value.instRef 1), ("x", Value.instRef 0), ("y", Value.instRef 0)] "y" :=
  ⟨rfl, rfl⟩

/-! ### Claim C2 -/

/-- Claim C2, counterexample.  The claim states that evaluating `str(x)`
leaves the output stream unchanged for *every* argument expression `x`.
With `x = o.m()` where `m`'s body is a bare `print`, the evaluation of
the argument writes a newline to the output stream: the bytes after
(`"\n"`) differ from the bytes before (`""`). -/
theorem claimC2_counterexample :
    exec printingClasses 20 (.stringify (.methodCall (.variableValue ["o"]) "m" []))
        [("o", Value.instRef 0)] ⟨[⟨0, []⟩], ""⟩ =
      .ok (Value.str "None") [("o", Value.instRef 0)] ⟨[⟨0, []⟩], "\n"⟩ ∧
    ("\n" : String) ≠ "" :=
  ⟨rfl, by decide⟩

/-- Claim C2, amended.  `Stringify::Execute` itself writes nothing to the
output stream: it evaluates the argument, prints the value into a
scratch buffer and returns an owning `String` with the buffer contents
(`"None"` for the empty holder).  The only writes to `context.output`
during `str(x)` are those performed by evaluating `x` itself and, when
the value is a class instance, by its `__str__` call; in particular,
when the argument's value is not a class instance, the state after
`str(x)` is exactly the state after evaluating the argument. -/
theorem claimC2_stringify_amended (classes : ClassEnv) (fuel : Nat) (x : Stmt)
    (c : Closure) (st : EState) (v : Value) (c2 : Closure) (st2 : EState)
    (h : exec classes fuel x c st = .ok v c2 st2) :
    (exec classes (fuel + 1) (.stringify x) c st =
      match printValue classes fuel v st2 with
      | .ok s st3 => .ok (Value.str s) c2 st3
      | .exn e => .exn e) ∧
    (∀ s, pureRepr classes v = some s →
      exec classes (fuel + 1) (.stringify x) c st = .ok (Value.str s) c2 st2) := by
  have hA : exec classes (fuel + 1) (.stringify x) c st =
      match printValue classes fuel v st2 with
      | .ok s st3 => .ok (Value.str s) c2 st3
      | .exn e => .exn e := by
    simp only [exec]
    rw [h]
  refine ⟨hA, ?_⟩
  intro s hs
  cases fuel with
  | zero => simp [exec] at h
  | succ g => rw [hA, printValue_pure classes v s hs g st2]

/-- Claim C2, witness.  `str(n)` for a numeric variable: the theorem
applied at a concrete input; the state (and so the output stream) is
unchanged. -/
theorem claimC2_witness :
    exec [] 2 (.stringify (.variableValue ["n"])) [("n", Value.num 5)] ⟨[], ""⟩ =
      .ok (Value.str "5") [("n", Value.num 5)] ⟨[], ""⟩ :=
  (claimC2_stringify_amended [] 1 (.variableValue ["n"]) [("n", Value.num 5)] ⟨[], ""⟩
      (Value.num 5) [("n", Value.num 5)] ⟨[], ""⟩ rfl).2 "5" rfl

/-! ### Claim C3 -/

/-- Claim C3, counterexample.  The claim states that a dotted path whose
intermediate value is not a `ClassInstance` raises a runtime error.
With scope `{a ↦ Number 1, b ↦ Number 2}`, evaluating `a.b` succeeds
and returns `Number 2`: the loop of `VariableValue::Execute` has no
`else` for the non-instance case, so it keeps looking up the remaining
ids in the same map. -/
theorem claimC3_counterexample :
    exec [] 1 (.variableValue ["a", "b"]) [("a", Value.num 1), ("b", Value.num 2)] ⟨[], ""⟩ =
      .ok (Value.num 2) [("a", Value.num 1), ("b", Value.num 2)] ⟨[], ""⟩ ∧
    ¬ ∃ msg st',
        exec [] 1 (.variableValue ["a", "b"]) [("a", Value.num 1), ("b", Value.num 2)] ⟨[], ""⟩ =
          .exn (.rerr msg st') := by
  refine ⟨rfl, ?_⟩
  rintro ⟨msg, st', hcontra⟩
  rw [show exec [] 1 (.variableValue ["a", "b"])
        [("a", Value.num 1), ("b", Value.num 2)] ⟨[], ""⟩ =
      .ok (Value.num 2) [("a", Value.num 1), ("b", Value.num 2)] ⟨[], ""⟩ from rfl] at hcontra
  cases hcontra

/-- Claim C3, amended.  `VariableValue` on a dotted path traverses the
ids before the last over a current map that starts at the scope: a name
bound to a `ClassInstance` moves the map to that instance's fields; a
missing name or a non-instance value leaves the map unchanged (no
error).  The result is the last id's binding in the map so reached, and
a runtime error is raised exactly when that final lookup fails. -/
theorem claimC3_variableValue_amended (classes : ClassEnv) (fuel : Nat)
    (ids : List String) (hne : ids ≠ []) (c : Closure) (st : EState) :
    exec classes (fuel + 1) (.variableValue ids) c st =
      match clookup (descendQuirk st.heap c ids.dropLast) (ids.getLast hne) with
      | some v => .ok v c st
      | Option.none =>
        .exn (.rerr "Unexpected error of the \"VariableValue::Execute\" method" st) := by
  simp only [exec]
  rw [varLoop_eq_descend st.heap ids hne c]

/-- Claim C3, witness.  The amended theorem applied at `o.g` with
`o ↦ instance 0` whose fields hold `g ↦ Number 7`. -/
theorem claimC3_witness :
    exec [] 1 (.variableValue ["o", "g"]) [("o", Value.instRef 0)]
        ⟨[⟨0, [("g", Value.num 7)]⟩], ""⟩ =
      .ok (Value.num 7) [("o", Value.instRef 0)] ⟨[⟨0, [("g", Value.num 7)]⟩], ""⟩ :=
  (claimC3_variableValue_amended [] 0 ["o", "g"] (by decide) [("o", Value.instRef 0)]
      ⟨[⟨0, [("g", Value.num 7)]⟩], ""⟩).trans rfl

end Mython

namespace Mython

/-! ### Claim C4 -/

/-- Claim C4.  `FieldAssignment(object_var, field, rhs)` resolves
`object_var`; a resolved value that is not a `ClassInstance` raises the
runtime error.  Otherwise the right-hand side is evaluated (with the
field entry already default-created, as `Fields()[field_name_]` does),
the resulting value is stored in the instance's fields under `field`,
the same value is bound under `field` in the scope in which the
statement executes, and the statement's result is that value. -/
theorem claimC4_fieldAssignment (classes : ClassEnv) (fuel : Nat)
    (objIds : List String) (f : String) (rhs : Stmt) (c : Closure) (st : EState) :
    (∀ v, varLoop st.heap objIds c = some v → (∀ i, v ≠ Value.instRef i) →
      exec classes (fuel + 1) (.fieldAssignment objIds f rhs) c st =
        .exn (.rerr "FieldAssignment::Execute. The object is not a custom type" st)) ∧
    (∀ i v c2 st2 inst2,
      varLoop st.heap objIds c = some (Value.instRef i) →
      exec classes fuel rhs c { st with heap := ensureField st.heap i f } = .ok v c2 st2 →
      st2.heap[i]? = some inst2 →
      exec classes (fuel + 1) (.fieldAssignment objIds f rhs) c st =
          .ok v (cinsert c2 f v) { st2 with heap := setField st2.heap i f v } ∧
        clookup (cinsert c2 f v) f = some v ∧
        clookup (fieldsOf (setField st2.heap i f v) i) f = some v) := by
  constructor
  · intro v hv hni
    simp only [exec]
    rw [hv]
    cases v with
    | instRef i => exact absurd rfl (hni i)
    | none => rfl
    | num n => rfl
    | str s => rfl
    | bool b => rfl
    | classRef cr => rfl
  · intro i v c2 st2 inst2 hv hrhs hinst
    refine ⟨?_, clookup_cinsert c2 f v, ?_⟩
    · simp only [exec]
      rw [hv]
      show (match exec classes fuel rhs c { st with heap := ensureField st.heap i f } with
            | Res.ok v c2 st2 =>
              Res.ok v (cinsert c2 f v) { st2 with heap := setField st2.heap i f v }
            | Res.exn e => Res.exn e) = _
      rw [hrhs]
    · rw [fieldsOf_setField st2.heap i f v inst2 hinst]
      exact clookup_cinsert inst2.fields f v

/-- Claim C4, witness.  `o.g = None` on an instance with empty fields. -/
theorem claimC4_witness :
    exec [] 2 (.fieldAssignment ["o"] "g" .noneLit) [("o", Value.instRef 0)] ⟨[⟨0, []⟩], ""⟩ =
      .ok Value.none [("o", Value.instRef 0), ("g", Value.none)]
        ⟨[⟨0, [("g", Value.none)]⟩], ""⟩ ∧
    clookup [("o", Value.instRef 0), ("g", Value.none)] "g" = some Value.none ∧
    clookup (fieldsOf [⟨0, [("g", Value.none)]⟩] 0) "g" = some Value.none := by
  have h := (claimC4_fieldAssignment [] 1 ["o"] "g" .noneLit [("o", Value.instRef 0)]
      ⟨[⟨0, []⟩], ""⟩).2 0 Value.none [("o", Value.instRef 0)]
      ⟨[⟨0, [("g", Value.none)]⟩], ""⟩ ⟨0, [("g", Value.none)]⟩ rfl rfl rfl
  exact ⟨h.1, h.2.1, h.2.2⟩

/-! ### Claim C7 -/

/-- Claim C7.  `Or::Execute`: when the left operand evaluates to a true
`Bool`, the result is `Bool(true)` and the right operand is not
evaluated — the resulting scope and state are exactly those left by the
left operand.  Otherwise the right operand is evaluated, and the result
is `Bool(true)` exactly when it yields a true `Bool` and `Bool(false)`
otherwise (non-`Bool` operands count as false); an exception from the
right operand propagates. -/
theorem claimC7_or_short_circuit (classes : ClassEnv) (fuel : Nat) (l r : Stmt)
    (c : Closure) (st : EState) :
    (∀ c2 st2, exec classes fuel l c st = .ok (Value.bool true) c2 st2 →
      exec classes (fuel + 1) (.or l r) c st = .ok (Value.bool true) c2 st2) ∧
    (∀ v c2 st2 rv c3 st3,
      exec classes fuel l c st = .ok v c2 st2 → isTrueBool v = false →
      exec classes fuel r c2 st2 = .ok rv c3 st3 →
      exec classes (fuel + 1) (.or l r) c st = .ok (Value.bool (isTrueBool rv)) c3 st3) ∧
    (∀ v c2 st2 e,
      exec classes fuel l c st = .ok v c2 st2 → isTrueBool v = false →
      exec classes fuel r c2 st2 = .exn e →
      exec classes (fuel + 1) (.or l r) c st = .exn e) := by
  refine ⟨?_, ?_, ?_⟩
  · intro c2 st2 h
    simp only [exec]
    rw [h]
    rfl
  · intro v c2 st2 rv c3 st3 h hv hr
    simp only [exec]
    rw [h]
    show (if isTrueBool v = true then Res.ok (Value.bool true) c2 st2
          else
            match exec classes fuel r c2 st2 with
            | Res.ok rv c3 st3 =>
              if isTrueBool rv = true then Res.ok (Value.bool true) c3 st3
              else Res.ok (Value.bool false) c3 st3
            | Res.exn e => Res.exn e) = _
    rw [hv, hr]
    cases hrv : isTrueBool rv <;> simp [hrv]
  · intro v c2 st2 e h hv hr
    simp only [exec]
    rw [h]
    show (if isTrueBool v = true then Res.ok (Value.bool true) c2 st2
          else
            match exec classes fuel r c2 st2 with
            | Res.ok rv c3 st3 =>
              if isTrueBool rv = true then Res.ok (Value.bool true) c3 st3
              else Res.ok (Value.bool false) c3 st3
            | Res.exn e => Res.exn e) = _
    rw [hv, hr]
    simp

/-- Claim C7, witness.  `t or print`: the left operand is a true `Bool`, so
the `print` never runs and the output stream stays empty. -/
theorem claimC7_witness :
    exec [] 2 (.or (.variableValue ["t"]) (.print [])) [("t", Value.bool true)] ⟨[], ""⟩ =
      .ok (Value.bool true) [("t", Value.bool true)] ⟨[], ""⟩ :=
  (claimC7_or_short_circuit [] 1 (.variableValue ["t"]) (.print [])
      [("t", Value.bool true)] ⟨[], ""⟩).1 [("t", Value.bool true)] ⟨[], ""⟩ rfl

end Mython

namespace Mython

/-! ### Claim C8 -/

/-- Claim C8.  The derived comparators are defined from the primitive
ones exactly as the source writes them, on every pair of values and
state on which the primitive calls they make are defined:
`NotEqual = !Equal`; `GreaterOrEqual = !Less`; `Greater` is `false`
when `Less` is true and `!Equal` otherwise (that is,
`!Less && !Equal`); `LessOrEqual` is `true` when `Less` is true and
`Equal` otherwise (that is, `Less || Equal`), with the C++
short-circuit of `&&`/`||` determining which primitive calls happen. -/
theorem claimC8_derived_comparators (classes : ClassEnv) (fuel : Nat)
    (a b : Value) (st : EState) :
    (∀ e st2, equalCmp classes fuel a b st = .ok e st2 →
      notEqualCmp classes (fuel + 1) a b st = .ok (!e) st2) ∧
    (∀ l st2, lessCmp classes fuel a b st = .ok l st2 →
      greaterOrEqualCmp classes (fuel + 1) a b st = .ok (!l) st2) ∧
    (∀ st2, lessCmp classes fuel a b st = .ok true st2 →
      greaterCmp classes (fuel + 1) a b st = .ok false st2) ∧
    (∀ st2 e st3, lessCmp classes (fuel + 1) a b st = .ok false st2 →
      equalCmp classes fuel a b st2 = .ok e st3 →
      greaterCmp classes (fuel + 2) a b st = .ok (!e) st3) ∧
    (∀ st2, lessCmp classes fuel a b st = .ok true st2 →
      lessOrEqualCmp classes (fuel + 1) a b st = .ok true st2) ∧
    (∀ st2 e st3, lessCmp classes fuel a b st = .ok false st2 →
      equalCmp classes fuel a b st2 = .ok e st3 →
      lessOrEqualCmp classes (fuel + 1) a b st = .ok e st3) := by
  refine ⟨?_, ?_, ?_, ?_, ?_, ?_⟩
  · intro e st2 h
    simp only [notEqualCmp]
    rw [h]
  · intro l st2 h
    simp only [greaterOrEqualCmp]
    rw [h]
  · intro st2 h
    simp only [greaterCmp]
    rw [h]
  · intro st2 e st3 hl he
    simp only [greaterCmp]
    rw [hl]
    show notEqualCmp classes (fuel + 1) a b st2 = _
    simp only [notEqualCmp]
    rw [he]
  · intro st2 h
    simp only [lessOrEqualCmp]
    rw [h]
  · intro st2 e st3 hl he
    simp only [lessOrEqualCmp]
    rw [hl]
    exact he

/-- Claim C8, witness.  The derived comparators at `Number 2` and
`Number 3`: `Equal` is false and `Less` is true, so `NotEqual` is true,
`GreaterOrEqual` is false, `Greater` is false and `LessOrEqual` is
true. -/
theorem claimC8_witness :
    notEqualCmp [] 3 (Value.num 2) (Value.num 3) ⟨[], ""⟩ = .ok true ⟨[], ""⟩ ∧
    greaterOrEqualCmp [] 3 (Value.num 2) (Value.num 3) ⟨[], ""⟩ = .ok false ⟨[], ""⟩ ∧
    greaterCmp [] 3 (Value.num 2) (Value.num 3) ⟨[], ""⟩ = .ok false ⟨[], ""⟩ ∧
    lessOrEqualCmp [] 3 (Value.num 2) (Value.num 3) ⟨[], ""⟩ = .ok true ⟨[], ""⟩ := by
  have h := claimC8_derived_comparators [] 2 (Value.num 2) (Value.num 3) ⟨[], ""⟩
  exact ⟨h.1 false ⟨[], ""⟩ rfl, h.2.1 true ⟨[], ""⟩ rfl, h.2.2.1 ⟨[], ""⟩ rfl,
    h.2.2.2.2.1 ⟨[], ""⟩ rfl⟩

/-! ### Claim C9 -/

/-- Claim C9.  `Return::Execute` evaluates its expression and throws the
resulting `ObjectHolder`; `Compound::Execute` (the node `ParseProgram`
wraps the whole program in) does not catch it, so a `Return` executed
at top level propagates out of the program's execution as the thrown
holder — neither a `RuntimeError` nor a no-op; only
`MethodBody::Execute` catches the exit and turns it into its own
result. -/
theorem claimC9_return_uncaught (classes : ClassEnv) (fuel : Nat) (c : Closure) (st : EState) :
    (∀ e v c2 st2, exec classes fuel e c st = .ok v c2 st2 →
      exec classes (fuel + 1) (.ret e) c st = .exn (.thrown v c2 st2)) ∧
    (∀ s rest v c2 st2, exec classes fuel s c st = .exn (.thrown v c2 st2) →
      exec classes (fuel + 2) (.compound (s :: rest)) c st = .exn (.thrown v c2 st2)) ∧
    (∀ b v c2 st2, exec classes fuel b c st = .exn (.thrown v c2 st2) →
      exec classes (fuel + 1) (.methodBody b) c st = .ok v c2 st2) := by
  refine ⟨?_, ?_, ?_⟩
  · intro e v c2 st2 h
    simp only [exec]
    rw [h]
  · intro s rest v c2 st2 h
    simp only [exec, execSeq]
    rw [h]
  · intro b v c2 st2 h
    simp only [exec]
    rw [h]

/-- Claim C9, witness.  `return None` executed at top level (inside the
program's `Compound`) leaves the interpreter with the thrown holder;
the same statement under a `MethodBody` yields a normal result. -/
theorem claimC9_witness :
    exec [] 2 (.ret .noneLit) [] ⟨[], ""⟩ = .exn (.thrown Value.none [] ⟨[], ""⟩) ∧
    exec [] 4 (.compound [.ret .noneLit]) [] ⟨[], ""⟩ =
      .exn (.thrown Value.none [] ⟨[], ""⟩) ∧
    exec [] 3 (.methodBody (.ret .noneLit)) [] ⟨[], ""⟩ = .ok Value.none [] ⟨[], ""⟩ := by
  refine ⟨(claimC9_return_uncaught [] 1 [] ⟨[], ""⟩).1 .noneLit Value.none [] ⟨[], ""⟩ rfl,
    (claimC9_return_uncaught [] 2 [] ⟨[], ""⟩).2.1 (.ret .noneLit) [] Value.none [] ⟨[], ""⟩ ?_,
    (claimC9_return_uncaught [] 2 [] ⟨[], ""⟩).2.2 (.ret .noneLit) Value.none [] ⟨[], ""⟩ ?_⟩
  · rfl
  · rfl

/-! ### Claim C10 -/

/-- Claim C10.  When `Equal` (`Less`) reaches the `ClassInstance` branch
of `ComparatorImpl` — left operand an instance whose class has
`__eq__` (`__lt__`) of arity 1 — the dunder's returned holder is
converted with the unchecked `TryAs<Bool>()->GetValue()`.  When the
dunder returns a `Bool`, the comparator returns exactly that boolean;
when it returns anything else, `TryAs<Bool>` is null and the
dereference is undefined behaviour. -/
theorem claimC10_dunder_bool_extraction (classes : ClassEnv) (fuel : Nat) (i : Nat)
    (b : Value) (st : EState) (v : Value) (st2 : EState) :
    (hasMethodI classes st.heap i "__eq__" 1 = true →
      callMethod classes fuel i "__eq__" [b] st = .ok v st2 →
      (∀ bv, v = Value.bool bv →
        equalCmp classes (fuel + 2) (Value.instRef i) b st = .ok bv st2) ∧
      ((∀ bv, v ≠ Value.bool bv) →
        equalCmp classes (fuel + 2) (Value.instRef i) b st = .exn (.ub st2))) ∧
    (hasMethodI classes st.heap i "__lt__" 1 = true →
      callMethod classes fuel i "__lt__" [b] st = .ok v st2 →
      (∀ bv, v = Value.bool bv →
        lessCmp classes (fuel + 2) (Value.instRef i) b st = .ok bv st2) ∧
      ((∀ bv, v ≠ Value.bool bv) →
        lessCmp classes (fuel + 2) (Value.instRef i) b st = .exn (.ub st2))) := by
  constructor
  · intro hm hc
    have hbase : equalCmp classes (fuel + 2) (Value.instRef i) b st =
        (if hasMethodI classes st.heap i "__eq__" 1 then
          match callMethod classes fuel i "__eq__" [b] st with
          | .ok v st2 =>
            match v with
            | Value.bool bv => CmpRes.ok bv st2
            | _ => CmpRes.exn (.ub st2)
          | .exn e => CmpRes.exn e
        else CmpRes.exn (.rerr "Non-comparable objects" st)) := by
      cases b <;> rfl
    rw [hbase, if_pos hm, hc]
    constructor
    · intro bv hv
      subst hv
      rfl
    · intro hnb
      cases v with
      | bool bv => exact absurd rfl (hnb bv)
      | none => rfl
      | num n => rfl
      | str s => rfl
      | instRef j => rfl
      | classRef j => rfl
  · intro hm hc
    have hbase : lessCmp classes (fuel + 2) (Value.instRef i) b st =
        (if hasMethodI classes st.heap i "__lt__" 1 then
          match callMethod classes fuel i "__lt__" [b] st with
          | .ok v st2 =>
            match v with
            | Value.bool bv => CmpRes.ok bv st2
            | _ => CmpRes.exn (.ub st2)
          | .exn e => CmpRes.exn e
        else CmpRes.exn (.rerr "Non-comparable objects" st)) := by
      cases b <;> rfl
    rw [hbase, if_pos hm, hc]
    constructor
    · intro bv hv
      subst hv
      rfl
    · intro hnb
      cases v with
      | bool bv => exact absurd rfl (hnb bv)
      | none => rfl
      | num n => rfl
      | str s => rfl
      | instRef j => rfl
      | classRef j => rfl

/-- Claim C10, witness.  A class whose `__eq__` returns its argument and
whose `__lt__` returns *None*: `Equal` against `Bool(true)` yields
exactly that `Bool`; `Less` hits the null-`TryAs<Bool>` dereference. -/
theorem claimC10_witness :
    equalCmp dunderClasses 8 (Value.instRef 0) (Value.bool true) ⟨[⟨0, []⟩], ""⟩ =
      .ok true ⟨[⟨0, []⟩], ""⟩ ∧
    lessCmp dunderClasses 8 (Value.instRef 0) (Value.bool true) ⟨[⟨0, []⟩], ""⟩ =
      .exn (.ub ⟨[⟨0, []⟩], ""⟩) := by
  refine ⟨((claimC10_dunder_bool_extraction dunderClasses 6 0 (Value.bool true) ⟨[⟨0, []⟩], ""⟩
      (Value.bool true) ⟨[⟨0, []⟩], ""⟩).1 rfl rfl).1 true rfl,
    ((claimC10_dunder_bool_extraction dunderClasses 6 0 (Value.bool true) ⟨[⟨0, []⟩], ""⟩
      Value.none ⟨[⟨0, []⟩], ""⟩).2 rfl rfl).2 ?_⟩
  intro bv hcontra
  cases hcontra

end Mython

namespace Mython

/-! ### Counting lemmas for the lexer (claim C5) -/

set_option maxHeartbeats 1000000 in
theorem keywordToken_ne_dent (w : String) (t : Token) (h : keywordToken w = some t) :
    t ≠ Token.indent ∧ t ≠ Token.dedent := by
  unfold keywordToken at h
  split_ifs at h
  all_goals cases h
  all_goals exact ⟨by decide, by decide⟩

theorem handleKeywordOrId_counts (st : LexState) :
    (handleKeywordOrId st).rtokens.count Token.indent = st.rtokens.count Token.indent ∧
    (handleKeywordOrId st).rtokens.count Token.dedent = st.rtokens.count Token.dedent ∧
    (handleKeywordOrId st).dent = st.dent := by
  unfold handleKeywordOrId
  split
  · exact ⟨rfl, rfl, rfl⟩
  · split
    · split
      · next t heq =>
        obtain ⟨h1, h2⟩ := keywordToken_ne_dent _ _ heq
        exact ⟨List.count_cons_of_ne (Ne.symm h1) _, List.count_cons_of_ne (Ne.symm h2) _, rfl⟩
      · refine ⟨List.count_cons_of_ne ?_ _, List.count_cons_of_ne ?_ _, rfl⟩ <;> simp
    · exact ⟨rfl, rfl, rfl⟩

theorem handleOperatorEqOrSymbol_counts (st : LexState) :
    (handleOperatorEqOrSymbol st).rtokens.count Token.indent = st.rtokens.count Token.indent ∧
    (handleOperatorEqOrSymbol st).rtokens.count Token.dedent = st.rtokens.count Token.dedent ∧
    (handleOperatorEqOrSymbol st).dent = st.dent := by
  unfold handleOperatorEqOrSymbol
  split
  · exact ⟨rfl, rfl, rfl⟩
  · split
    · exact ⟨rfl, rfl, rfl⟩
    · split
      · exact ⟨rfl, rfl, rfl⟩
      · split <;>
          (refine ⟨List.count_cons_of_ne ?_ _, List.count_cons_of_ne ?_ _, rfl⟩ <;> simp)

theorem handleIntValue_counts (st st' : LexState) (h : handleIntValue st = .ok st') :
    st'.rtokens.count Token.indent = st.rtokens.count Token.indent ∧
    st'.rtokens.count Token.dedent = st.rtokens.count Token.dedent ∧
    st'.dent = st.dent := by
  unfold handleIntValue at h
  split at h
  · cases h; exact ⟨rfl, rfl, rfl⟩
  · split at h
    · split at h
      · cases h
      · cases h
        refine ⟨List.count_cons_of_ne ?_ _, List.count_cons_of_ne ?_ _, rfl⟩ <;> simp
    · cases h; exact ⟨rfl, rfl, rfl⟩

theorem handleString_counts (st st' : LexState) (h : handleString st = .ok st') :
    st'.rtokens.count Token.indent = st.rtokens.count Token.indent ∧
    st'.rtokens.count Token.dedent = st.rtokens.count Token.dedent ∧
    st'.dent = st.dent := by
  unfold handleString at h
  split at h
  · cases h; exact ⟨rfl, rfl, rfl⟩
  · split at h
    · split at h
      · cases h
        refine ⟨List.count_cons_of_ne ?_ _, List.count_cons_of_ne ?_ _, rfl⟩ <;> simp
      · cases h
    · cases h; exact ⟨rfl, rfl, rfl⟩

theorem handleComments_counts (st : LexState) :
    (handleComments st).rtokens.count Token.indent = st.rtokens.count Token.indent ∧
    (handleComments st).rtokens.count Token.dedent = st.rtokens.count Token.dedent ∧
    (handleComments st).dent = st.dent := by
  unfold handleComments
  repeat' split
  all_goals
    refine ⟨?_, ?_, rfl⟩ <;>
      first
        | rfl
        | (refine List.count_cons_of_ne ?_ _ <;> simp)

theorem handleNewLine_counts (st : LexState) :
    (handleNewLine st).rtokens.count Token.indent = st.rtokens.count Token.indent ∧
    (handleNewLine st).rtokens.count Token.dedent = st.rtokens.count Token.dedent ∧
    (handleNewLine st).dent = st.dent := by
  unfold handleNewLine
  repeat' split
  all_goals
    refine ⟨?_, ?_, rfl⟩ <;>
      first
        | rfl
        | (refine List.count_cons_of_ne ?_ _ <;> simp)

theorem handleDent_inv (st st' : LexState) (h : handleDent st = .ok st')
    (hinv : st.rtokens.count Token.indent = st.rtokens.count Token.dedent + st.dent) :
    st'.rtokens.count Token.indent = st'.rtokens.count Token.dedent + st'.dent := by
  unfold handleDent at h
  split at h
  · cases h; exact hinv
  · split at h
    · cases h; exact hinv
    · split at h
      · cases h
      · split at h
        · next hlt =>
          cases h
          simp +decide [List.count_append, List.count_replicate]
          omega
        · next hge =>
          cases h
          simp +decide [List.count_append, List.count_replicate]
          omega

/-- One lexer-loop iteration preserves the invariant: the number of
emitted `Indent` tokens equals the number of emitted `Dedent` tokens
plus `current_dent_`. -/
theorem lexIter_inv (st st' : LexState) (h : lexIter st = .ok st')
    (hinv : st.rtokens.count Token.indent = st.rtokens.count Token.dedent + st.dent) :
    st'.rtokens.count Token.indent = st'.rtokens.count Token.dedent + st'.dent := by
  unfold lexIter at h
  obtain ⟨hk1, hk2, hk3⟩ := handleKeywordOrId_counts st
  obtain ⟨ho1, ho2, ho3⟩ := handleOperatorEqOrSymbol_counts (handleKeywordOrId st)
  cases hIV : handleIntValue (handleOperatorEqOrSymbol (handleKeywordOrId st)) with
  | error e => simp only [hIV] at h; cases h
  | ok st3 =>
    simp only [hIV] at h
    obtain ⟨hi1, hi2, hi3⟩ := handleIntValue_counts _ _ hIV
    cases hSt : handleString st3 with
    | error e => simp only [hSt] at h; cases h
    | ok st4 =>
      simp only [hSt] at h
      obtain ⟨hs1, hs2, hs3⟩ := handleString_counts _ _ hSt
      obtain ⟨hc1, hc2, hc3⟩ :=
        handleComments_counts { st4 with input := removeSpaces st4.input }
      obtain ⟨hn1, hn2, hn3⟩ :=
        handleNewLine_counts (handleComments { st4 with input := removeSpaces st4.input })
      exact handleDent_inv _ _ h (by
        rw [hn1, hn2, hn3, hc1, hc2, hc3]
        show st4.rtokens.count Token.indent = st4.rtokens.count Token.dedent + st4.dent
        rw [hs1, hs2, hs3, hi1, hi2, hi3, ho1, ho2, ho3, hk1, hk2, hk3]
        exact hinv)

theorem lexLoop_inv (fuel : Nat) : ∀ st st', lexLoop fuel st = .ok st' →
    st.rtokens.count Token.indent = st.rtokens.count Token.dedent + st.dent →
    st'.rtokens.count Token.indent = st'.rtokens.count Token.dedent + st'.dent := by
  induction fuel with
  | zero => intro st st' h; cases h
  | succ f ih =>
    intro st st' h hinv
    simp only [lexLoop] at h
    cases hit : lexIter st with
    | error e => simp only [hit] at h; cases h
    | ok st2 =>
      simp only [hit] at h
      have hinv2 := lexIter_inv st st2 hit hinv
      by_cases hempty : st2.input.isEmpty = true
      · rw [if_pos hempty] at h
        cases hit2 : lexIter st2 with
        | error e => simp only [hit2] at h; cases h
        | ok st3 =>
          simp only [hit2] at h
          cases h
          exact lexIter_inv st2 _ hit2 hinv2
      · rw [if_neg hempty] at h
        exact ih st2 st' h hinv2

theorem finishTokens_counts (rt : List Token) :
    (finishTokens rt).count Token.indent = rt.count Token.indent ∧
    (finishTokens rt).count Token.dedent = rt.count Token.dedent := by
  unfold finishTokens
  repeat' split
  all_goals
    refine ⟨?_, ?_⟩ <;>
      simp only [List.count_reverse] <;>
      first
        | (refine List.count_cons_of_ne ?_ _ <;> simp)
        | (refine (List.count_cons_of_ne ?_ _).trans (List.count_cons_of_ne ?_ _) <;> simp)

end Mython

namespace Mython

/-! ### Claim C5 -/

/-- Claim C5, counterexample.  The claim states that on any input the lexer
processes without error, the number of `Indent` tokens equals the
number of `Dedent` tokens.  The input `"x\n  y"` — an indented final
line with no trailing newline — lexes without error to a token sequence
with one `Indent` and no `Dedent`: the stream fails inside `ReadWord`
while reading `y`, the loop exits before any `Newline` is emitted, and
`HandleDent` (which only runs after a `Newline`) never gets to emit the
closing `Dedent`s. -/
theorem claimC5_counterexample :
    lexProgram 20 ("x\n  y".toList) =
      .ok [Token.id "x", .newline, .indent, .id "y", .newline, .eof] 1 ∧
    ¬ ([Token.id "x", Token.newline, Token.indent, Token.id "y", Token.newline,
        Token.eof].count Token.indent =
       [Token.id "x", Token.newline, Token.indent, Token.id "y", Token.newline,
        Token.eof].count Token.dedent) := by
  exact ⟨by decide, by decide⟩

/-- Claim C5, amended.  On any input the lexer processes without error,
the number of `Indent` tokens equals the number of `Dedent` tokens
*plus the final indentation level* (`current_dent_` when the loop
exits).  Hence the `Dedent` count never exceeds the `Indent` count, and
the two are equal exactly when the input's last lexed line returns to
indentation zero — in particular whenever the text ends with a newline. -/
theorem claimC5_indent_balance (fuel : Nat) (input : List Char) (toks : List Token) (d : Nat)
    (h : lexProgram fuel input = .ok toks d) :
    toks.count Token.indent = toks.count Token.dedent + d ∧
    toks.count Token.dedent ≤ toks.count Token.indent := by
  unfold lexProgram at h
  cases hl : lexLoop fuel ⟨removeSpaces input, [], 0⟩ with
  | ok st =>
    rw [hl] at h
    cases h
    have hinv := lexLoop_inv fuel _ st hl (by simp)
    obtain ⟨h1, h2⟩ := finishTokens_counts st.rtokens
    rw [h1, h2]
    exact ⟨hinv, by omega⟩
  | err e => rw [hl] at h; cases h
  | hang => rw [hl] at h; cases h

/-- Claim C5, witness.  The amended theorem applied to `"x\n  y\n"`, which
lexes to a balanced sequence with final indentation level `0`. -/
theorem claimC5_witness :
    [Token.id "x", Token.newline, Token.indent, Token.id "y", Token.newline,
      Token.dedent, Token.eof].count Token.indent =
    [Token.id "x", Token.newline, Token.indent, Token.id "y", Token.newline,
      Token.dedent, Token.eof].count Token.dedent + 0 :=
  (claimC5_indent_balance 20 ("x\n  y\n".toList)
    [Token.id "x", .newline, .indent, .id "y", .newline, .dedent, .eof] 0 (by decide)).1

end Mython


namespace Mython

/-! ### Suffix lemmas for the lexer (claim C6): every handler leaves a
suffix of its input (consumed characters are only ever put back
last-in-first-out). -/

theorem readStringBody_suffix (q : Char) :
    ∀ (n : Nat) (l : List Char), l.length ≤ n →
      ∀ s r, readStringBody q l = .ok (s, r) → r <:+ l := by
  intro n
  induction n with
  | zero =>
    intro l hl s r h
    cases l with
    | nil =>
      unfold readStringBody at h
      cases h
      exact List.nil_suffix
    | cons c rest => simp at hl
  | succ n ih =>
    intro l hl s r h
    cases l with
    | nil =>
      unfold readStringBody at h
      cases h
      exact List.nil_suffix
    | cons c rest =>
      have hrest : rest.length ≤ n := by
        simp only [List.length_cons] at hl
        omega
      unfold readStringBody at h
      by_cases hc : c = q
      · rw [if_pos hc] at h
        cases h
        exact List.suffix_cons _ _
      · rw [if_neg hc] at h
        by_cases hbs : c = '\\'
        · rw [if_pos hbs] at h
          cases hr : rest with
          | nil => simp only [hr] at h; cases h
          | cons e rest2 =>
            simp only [hr] at h
            by_cases he0 : e.toNat = 0
            · rw [if_pos he0] at h
              cases h
            · rw [if_neg he0] at h
              cases hec : escapeChar e with
              | none => simp only [hec] at h; cases h
              | some ec =>
                simp only [hec] at h
                cases hrec : readStringBody q rest2 with
                | error err => simp only [hrec] at h; cases h
                | ok pr =>
                  obtain ⟨s2, r2⟩ := pr
                  simp only [hrec] at h
                  cases h
                  have h2 : rest2.length ≤ n := by
                    rw [hr] at hrest
                    simp only [List.length_cons] at hrest
                    omega
                  refine (ih rest2 h2 _ _ hrec).trans ?_
                  exact (List.suffix_cons e rest2).trans (List.suffix_cons c _)
        · rw [if_neg hbs] at h
          by_cases hnl : (decide (c = '\n') || decide (c = '\r')) = true
          · rw [if_pos hnl] at h
            cases h
          · rw [if_neg hnl] at h
            cases hrec : readStringBody q rest with
            | error err => simp only [hrec] at h; cases h
            | ok pr =>
              obtain ⟨s2, r2⟩ := pr
              simp only [hrec] at h
              cases h
              exact (ih rest hrest _ _ hrec).trans (List.suffix_cons c rest)

theorem handleKeywordOrId_suffix (st : LexState) :
    (handleKeywordOrId st).input <:+ st.input := by
  unfold handleKeywordOrId
  split
  · exact List.suffix_rfl
  · split
    · split
      · exact List.dropWhile_suffix _
      · exact List.dropWhile_suffix _
    · exact List.suffix_rfl

theorem handleOperatorEqOrSymbol_suffix (st : LexState) :
    (handleOperatorEqOrSymbol st).input <:+ st.input := by
  unfold handleOperatorEqOrSymbol
  split
  · exact List.suffix_rfl
  · next c rest heq =>
    split_ifs with h1 h2
    · exact List.suffix_rfl
    · exact List.suffix_rfl
    · split
      all_goals rw [heq]
      all_goals
        first
          | exact (List.suffix_cons _ _).trans (List.suffix_cons _ _)
          | exact List.suffix_cons _ _

theorem handleIntValue_suffix (st st' : LexState) (h : handleIntValue st = .ok st') :
    st'.input <:+ st.input := by
  unfold handleIntValue at h
  split at h
  · cases h; exact List.suffix_rfl
  · next c rest heq =>
    split_ifs at h
    all_goals cases h
    all_goals
      first
        | exact List.suffix_rfl
        | (rw [heq]; exact (List.dropWhile_suffix _).trans (List.suffix_cons _ _))

theorem handleString_suffix (st st' : LexState) (h : handleString st = .ok st') :
    st'.input <:+ st.input := by
  unfold handleString at h
  split at h
  · cases h; exact List.suffix_rfl
  · next c rest heq =>
    split_ifs at h
    · cases hrec : readStringBody c rest with
      | error e => simp only [hrec] at h; cases h
      | ok pr =>
        obtain ⟨s2, r2⟩ := pr
        simp only [hrec] at h
        cases h
        rw [heq]
        exact ((readStringBody_suffix c rest.length rest le_rfl _ _ hrec).trans
          (List.suffix_cons c rest))
    · cases h; exact List.suffix_rfl

theorem handleComments_suffix (st : LexState) :
    (handleComments st).input <:+ st.input := by
  unfold handleComments
  split
  · split
    · next r heq =>
      have h1 : ('\n' :: r : List Char) <:+ st.input := heq ▸ List.dropWhile_suffix _
      exact (List.suffix_cons '\n' r).trans h1
    · exact List.dropWhile_suffix _
  · exact List.suffix_rfl

theorem handleNewLine_suffix (st : LexState) :
    (handleNewLine st).input <:+ st.input := by
  unfold handleNewLine
  split
  · next rest heq =>
    rw [heq]
    exact List.suffix_cons '\n' rest
  · exact List.suffix_rfl

theorem handleDent_suffix (st st' : LexState) (h : handleDent st = .ok st') :
    st'.input <:+ st.input := by
  unfold handleDent at h
  split at h
  · cases h; exact List.suffix_rfl
  · split at h
    · cases h; exact List.suffix_rfl
    · split at h
      · cases h
      · split at h
        · cases h; exact List.dropWhile_suffix _
        · cases h; exact List.dropWhile_suffix _

theorem lexIter_suffix (st st' : LexState) (h : lexIter st = .ok st') :
    st'.input <:+ st.input := by
  unfold lexIter at h
  cases hIV : handleIntValue (handleOperatorEqOrSymbol (handleKeywordOrId st)) with
  | error e => simp only [hIV] at h; cases h
  | ok st3 =>
    simp only [hIV] at h
    cases hSt : handleString st3 with
    | error e => simp only [hSt] at h; cases h
    | ok st4 =>
      simp only [hSt] at h
      have h1 := handleKeywordOrId_suffix st
      have h2 := handleOperatorEqOrSymbol_suffix (handleKeywordOrId st)
      have h3 := handleIntValue_suffix _ _ hIV
      have h4 := handleString_suffix _ _ hSt
      have h5 : (removeSpaces st4.input : List Char) <:+ st4.input := List.dropWhile_suffix _
      have h6 := handleComments_suffix { st4 with input := removeSpaces st4.input }
      have h7 := handleNewLine_suffix
        (handleComments { st4 with input := removeSpaces st4.input })
      have h8 := handleDent_suffix _ _ h
      exact h8.trans (h7.trans (h6.trans (h5.trans (h4.trans (h3.trans (h2.trans h1))))))

end Mython

namespace Mython

/-! ### Digit runs and error classification (claim C6) -/

theorem hasTenDigitRun_mono {l1 l2 : List Char} (hs : l2 <:+ l1)
    (h : hasTenDigitRun l2 = true) : hasTenDigitRun l1 = true := by
  induction l1 with
  | nil =>
    rw [List.suffix_nil.mp hs] at h
    simp [hasTenDigitRun] at h
  | cons c cs ih =>
    rcases List.suffix_cons_iff.mp hs with h1 | h1
    · rw [h1] at h
      exact h
    · unfold hasTenDigitRun
      rw [ih h1]
      simp

theorem noTen_of_suffix {l1 l2 : List Char} (hs : l2 <:+ l1)
    (h : hasTenDigitRun l1 = false) : hasTenDigitRun l2 = false := by
  cases hh : hasTenDigitRun l2 with
  | false => rfl
  | true => exact absurd (hasTenDigitRun_mono hs hh) (by rw [h]; simp)

theorem takeWhile_length_le (p : Char → Bool) (l : List Char) :
    (l.takeWhile p).length ≤ l.length := by
  induction l with
  | nil => simp
  | cons c rest ih =>
    by_cases h : p c
    · rw [List.takeWhile_cons_of_pos h]; simpa using ih
    · rw [List.takeWhile_cons_of_neg h]; simp

theorem takeWhile_digits_le_nine (l : List Char) (h : hasTenDigitRun l = false) :
    (l.takeWhile isDigitCh).length ≤ 9 := by
  by_contra hlen
  push_neg at hlen
  apply absurd h
  simp only [Bool.not_eq_false]
  have hfront : tenDigitsAtFront l = true := by
    have hlenl : 10 ≤ l.length := le_trans hlen (takeWhile_length_le _ _)
    have htake : l.take 10 = (l.takeWhile isDigitCh).take 10 := by
      conv_lhs => rw [← List.takeWhile_append_dropWhile (p := isDigitCh) (l := l)]
      exact List.take_append_of_le_length hlen
    have h1 : (l.take 10).length = 10 := by
      simp [List.length_take, hlenl]
    have h2 : (l.take 10).all isDigitCh = true := by
      rw [htake]
      refine List.all_eq_true.mpr ?_
      intro x hx
      exact List.mem_takeWhile_imp (List.mem_of_mem_take hx)
    simp [tenDigitsAtFront, h1, h2]
  cases l with
  | nil => simp [tenDigitsAtFront] at hfront
  | cons c cs =>
    unfold hasTenDigitRun
    rw [hfront]
    simp

theorem digits_foldl_lt (ds : List Char) (hds : ∀ c ∈ ds, isDigitCh c = true) :
    ∀ acc, ds.foldl (fun a c => 10 * a + (c.toNat - 48)) acc < (acc + 1) * 10 ^ ds.length := by
  induction ds with
  | nil => intro acc; simp
  | cons c rest ih =>
    intro acc
    simp only [List.foldl_cons, List.length_cons]
    have hc : isDigitCh c = true := hds c (by simp)
    have hd : c.toNat - 48 ≤ 9 := by
      unfold isDigitCh at hc
      simp at hc
      omega
    have hih := ih (fun x hx => hds x (by simp [hx])) (10 * acc + (c.toNat - 48))
    refine lt_of_lt_of_le hih ?_
    have hstep : 10 * acc + (c.toNat - 48) + 1 ≤ (acc + 1) * 10 := by omega
    calc (10 * acc + (c.toNat - 48) + 1) * 10 ^ rest.length
        ≤ ((acc + 1) * 10) * 10 ^ rest.length := Nat.mul_le_mul_right _ hstep
      _ = (acc + 1) * 10 ^ (rest.length + 1) := by ring

/-- With no run of ten consecutive digits in the remaining input,
`std::stoi` cannot overflow: `HandleIntValue` does not throw. -/
theorem handleIntValue_no_error (st : LexState) (hten : hasTenDigitRun st.input = false)
    (e : LexFailure) : handleIntValue st ≠ .error e := by
  intro hcon
  unfold handleIntValue at hcon
  split at hcon
  · cases hcon
  · next c rest heq =>
    split_ifs at hcon with h1 h2
    · rw [heq] at hten
      have h9 : ((c :: rest).takeWhile isDigitCh).length ≤ 9 :=
        takeWhile_digits_le_nine _ hten
      rw [List.takeWhile_cons_of_pos h1] at h9
      have hall : ∀ x ∈ c :: rest.takeWhile isDigitCh, isDigitCh x = true := by
        intro x hx
        rcases List.mem_cons.mp hx with h | h
        · rw [h]; exact h1
        · exact List.mem_takeWhile_imp h
      have hlt := digits_foldl_lt (c :: rest.takeWhile isDigitCh) hall 0
      have hpow : 10 ^ (c :: rest.takeWhile isDigitCh).length ≤ 10 ^ 9 :=
        Nat.pow_le_pow_right (by norm_num) (by simpa using h9)
      unfold digitsToNat intMax at h2
      simp only [Nat.zero_add, one_mul] at hlt
      have h10 : (10 : Nat) ^ 9 = 1000000000 := by norm_num
      omega

/-- The string-literal loop only ever throws `LexerError`s. -/
theorem readStringBody_err (q : Char) :
    ∀ (n : Nat) (l : List Char), l.length ≤ n →
      ∀ e, readStringBody q l = .error e → e ≠ .outOfRange := by
  intro n
  induction n with
  | zero =>
    intro l hl e h
    cases l with
    | nil => unfold readStringBody at h; cases h
    | cons c rest => simp at hl
  | succ n ih =>
    intro l hl e h
    cases l with
    | nil => unfold readStringBody at h; cases h
    | cons c rest =>
      have hrest : rest.length ≤ n := by
        simp only [List.length_cons] at hl
        omega
      unfold readStringBody at h
      by_cases hc : c = q
      · rw [if_pos hc] at h; cases h
      · rw [if_neg hc] at h
        by_cases hbs : c = '\\'
        · rw [if_pos hbs] at h
          cases hr : rest with
          | nil =>
            simp only [hr] at h
            cases h
            simp
          | cons e2 rest2 =>
            simp only [hr] at h
            by_cases he0 : e2.toNat = 0
            · rw [if_pos he0] at h
              cases h
              simp
            · rw [if_neg he0] at h
              cases hec : escapeChar e2 with
              | none =>
                simp only [hec] at h
                cases h
                simp
              | some ec =>
                simp only [hec] at h
                cases hrec : readStringBody q rest2 with
                | error err =>
                  simp only [hrec] at h
                  cases h
                  have h2 : rest2.length ≤ n := by
                    rw [hr] at hrest
                    simp only [List.length_cons] at hrest
                    omega
                  exact ih rest2 h2 _ hrec
                | ok pr =>
                  obtain ⟨s2, r2⟩ := pr
                  simp only [hrec] at h
                  cases h
        · rw [if_neg hbs] at h
          by_cases hnl : (decide (c = '\n') || decide (c = '\r')) = true
          · rw [if_pos hnl] at h
            cases h
            simp
          · rw [if_neg hnl] at h
            cases hrec : readStringBody q rest with
            | error err =>
              simp only [hrec] at h
              cases h
              exact ih rest hrest _ hrec
            | ok pr =>
              obtain ⟨s2, r2⟩ := pr
              simp only [hrec] at h
              cases h

theorem handleString_err (st : LexState) (e : LexFailure)
    (h : handleString st = .error e) : e ≠ .outOfRange := by
  unfold handleString at h
  split at h
  · cases h
  · next c rest heq =>
    split_ifs at h
    · cases hrec : readStringBody c rest with
      | error e2 =>
        simp only [hrec] at h
        cases h
        exact readStringBody_err c rest.length rest le_rfl _ hrec
      | ok pr =>
        obtain ⟨s2, r2⟩ := pr
        simp only [hrec] at h
        cases h

theorem handleDent_err (st : LexState) (e : LexFailure)
    (h : handleDent st = .error e) : e ≠ .outOfRange := by
  unfold handleDent at h
  split at h
  · cases h
  · split at h
    · cases h
    · split at h
      · cases h
        simp
      · split at h
        · cases h
        · cases h

/-- One lexer iteration on an input free of ten-digit runs can only
throw `LexerError`s. -/
theorem lexIter_err (st : LexState) (hten : hasTenDigitRun st.input = false)
    (e : LexFailure) (h : lexIter st = .error e) : e ≠ .outOfRange := by
  unfold lexIter at h
  have hs1 := handleKeywordOrId_suffix st
  have hs2 := handleOperatorEqOrSymbol_suffix (handleKeywordOrId st)
  have hten2 : hasTenDigitRun (handleOperatorEqOrSymbol (handleKeywordOrId st)).input = false :=
    noTen_of_suffix (hs2.trans hs1) hten
  cases hIV : handleIntValue (handleOperatorEqOrSymbol (handleKeywordOrId st)) with
  | error e2 => exact absurd hIV (handleIntValue_no_error _ hten2 e2)
  | ok st3 =>
    simp only [hIV] at h
    cases hSt : handleString st3 with
    | error e2 =>
      simp only [hSt] at h
      cases h
      exact handleString_err st3 _ hSt
    | ok st4 =>
      simp only [hSt] at h
      exact handleDent_err _ _ h

/-- The whole lexer loop on an input free of ten-digit runs can only
throw `LexerError`s. -/
theorem lexLoop_err (fuel : Nat) : ∀ st e, hasTenDigitRun st.input = false →
    lexLoop fuel st = .err e → e ≠ .outOfRange := by
  induction fuel with
  | zero => intro st e hten h; cases h
  | succ f ih =>
    intro st e hten h
    simp only [lexLoop] at h
    cases hit : lexIter st with
    | error e2 =>
      simp only [hit] at h
      cases h
      exact lexIter_err st hten _ hit
    | ok st2 =>
      simp only [hit] at h
      have hten2 : hasTenDigitRun st2.input = false :=
        noTen_of_suffix (lexIter_suffix st st2 hit) hten
      by_cases hempty : st2.input.isEmpty = true
      · rw [if_pos hempty] at h
        cases hit2 : lexIter st2 with
        | error e2 =>
          simp only [hit2] at h
          cases h
          exact lexIter_err st2 hten2 _ hit2
        | ok st3 => simp only [hit2] at h; cases h
      · rw [if_neg hempty] at h
        exact ih st2 e hten2 h

end Mython

namespace Mython

/-! ### Claim C6 -/

/-- Claim C6, counterexample.  The claim states that every lexing failure
is a `LexError`.  The over-long integer literal `"9999999999"`
(4999999999... exceeds `INT_MAX`) makes `std::stoi` inside
`HandleIntValue` throw `std::out_of_range`, which is not a `LexerError`
and is not caught by the lexer. -/
theorem claimC6_counterexample :
    lexProgram 10 ("9999999999".toList) = .err .outOfRange ∧
    ¬ ∃ m, lexProgram 10 ("9999999999".toList) = .err (.lexError m) := by
  have h1 : lexProgram 10 ("9999999999".toList) = .err .outOfRange := by decide
  refine ⟨h1, ?_⟩
  rintro ⟨m, h2⟩
  rw [h1] at h2
  cases h2

/-- Claim C6, amended.  Every lexing failure on an input containing no
run of ten consecutive digits is a `LexError` (malformed indentation,
raw newline or unrecognized escape in a string, and so on); an
over-long integer literal instead escapes as the `std::out_of_range`
thrown by `std::stoi`. -/
theorem claimC6_lex_failures (fuel : Nat) (input : List Char) (e : LexFailure)
    (hten : hasTenDigitRun input = false) (h : lexProgram fuel input = .err e) :
    ∃ m, e = .lexError m := by
  unfold lexProgram at h
  cases hl : lexLoop fuel ⟨removeSpaces input, [], 0⟩ with
  | ok st => rw [hl] at h; cases h
  | hang => rw [hl] at h; cases h
  | err e2 =>
    rw [hl] at h
    cases h
    have hten0 : hasTenDigitRun (removeSpaces input) = false :=
      noTen_of_suffix (List.dropWhile_suffix _) hten
    have := lexLoop_err fuel ⟨removeSpaces input, [], 0⟩ e hten0 hl
    cases e with
    | lexError m => exact ⟨m, rfl⟩
    | outOfRange => exact absurd rfl this

/-- Claim C6, witness.  Indentation of three spaces: the failure the lexer
reports is the odd-indent `LexerError`, and the amended theorem applied
at this input confirms the failure is a `LexError`. -/
theorem claimC6_witness :
    lexProgram 10 ("x\n   y".toList) =
      .err (.lexError "One of the indents contains an odd number of spaces") ∧
    ∃ m, (LexFailure.lexError "One of the indents contains an odd number of spaces") =
      .lexError m :=
  ⟨by decide,
    claimC6_lex_failures 10 ("x\n   y".toList)
      (.lexError "One of the indents contains an odd number of spaces")
      (by decide) (by decide)⟩

end Mython
